import Mathlib

/-!
# Verification of the Boggle solver and Inverse-Boggle hill-climber

A shallow embedding of the program in `Boggle.ipynb`:

* `Board` — the `Board(dict)` class: an `n` × `n` arrangement of letter tiles,
  stored row-major (the Python dict maps square `(x, y)` to the letter at
  list index `y * n + x`, because `squares = [(x, y) for y in range(n) for x
  in range(n)]` is zipped with the letter list).
* `neighbors` — the 8-directional adjacency function.
* `find_words` — the depth-first, prefix-pruned word search.  The Python
  function recurses on paths that never revisit a square; here the recursion
  is driven by a fuel parameter (`find_words` supplies
  `b.squares.length + 1`, which the simple-path bound makes sufficient).
* `total_score` — the scorer.  Its Python payout list has 107 entries, and
  indexing past the end raises `IndexError`; the embedding returns `none`
  exactly when some scored word's length is out of range.
* `mutate_boggle`, `hill_step`, `hill_loop`, `boggle_hill_climbing` — the
  hill-climbing optimizer.  Randomness (`random.choice` over the square list
  and over the letter pool) is modelled by explicit choice indices, one pair
  per iteration, quantified over in the theorems.

Machine integers do not occur (Python ints are unbounded); coordinates are
`Int` and counts are `Nat`.  `isqrt` models Python's `int(len ** 0.5)`
(integer part of the square root) by structural recursion, since that is
what the float computation produces on all realistic sizes.
-/

/-- Integer square root, modelling Python's `int(len(letters) ** 0.5)`. -/
def isqrt : Nat → Nat
  | 0 => 0
  | m + 1 =>
    let s := isqrt m
    if (s + 1) * (s + 1) ≤ m + 1 then s + 1 else s

/-- Python string comparison (`'A' <= L <= 'Z'`) is lexicographic on code
points; this is that order on the underlying character lists. -/
def lexLe : List Char → List Char → Bool
  | [], _ => true
  | _ :: _, [] => false
  | a :: as, b :: bs => if a < b then true else if b < a then false else lexLe as bs

/-- `a <= b` for Python strings. -/
def pyLE (a b : String) : Bool := lexLe a.data b.data

/-- The letter-list preprocessing in `Board.__init__`:
`[('QU' if L == 'Q' else L) for L in letters if 'A' <= L <= 'Z']`. -/
def normalizeLetters (input : List String) : List String :=
  (input.filter fun L => pyLE "A" L && pyLE L "Z").map fun L => if L = "Q" then "QU" else L

/-- A board: `n` is the side length, `letters` the tile list in row-major
order (square `(x, y)` holds `letters[y * n + x]`). -/
structure Board where
  n : Nat
  letters : List String
deriving DecidableEq, Repr

/-- `Board.__init__`: filter to A–Z, substitute QU for Q, let `n` be the
integer square root of the resulting count, and keep the first `n * n`
letters (Python's `zip(self.squares, letters)` silently truncates). -/
def Board.ofLetters (input : List String) : Board :=
  let ls := normalizeLetters input
  let n := isqrt ls.length
  ⟨n, ls.take (n * n)⟩

/-- The nine `(dx, dy)` offsets generated by
`for dx in (-1, 0, 1) for dy in (-1, 0, 1)`. -/
def deltas : List (Int × Int) :=
  ([-1, 0, 1] : List Int).flatMap fun dx => ([-1, 0, 1] : List Int).map fun dy => (dx, dy)

/-- `neighbors(square, n)`: all in-bounds squares at offset `(dx, dy)` with
`dx, dy ∈ {-1, 0, 1}`, excluding the square itself. -/
def neighbors (s : Int × Int) (n : Nat) : List (Int × Int) :=
  (deltas.filter fun d =>
    decide (0 ≤ s.1 + d.1 ∧ s.1 + d.1 < (n : Int) ∧ 0 ≤ s.2 + d.2 ∧ s.2 + d.2 < (n : Int) ∧
      ¬(d.1 = 0 ∧ d.2 = 0))).map fun d => (s.1 + d.1, s.2 + d.2)

/-- `[(x, y) for y in range(n) for x in range(n)]` — row-major square list. -/
def squaresList (n : Nat) : List (Int × Int) :=
  (List.range n).flatMap fun (y : Nat) => (List.range n).map fun (x : Nat) => ((x : Int), (y : Int))

/-- The board's square list (`self.squares`). -/
def Board.squares (b : Board) : List (Int × Int) := squaresList b.n

/-- `board[s]` — the tile at a square (row-major indexing into the letter
list; total, returning `""` off the board, where the dict would have no key). -/
def Board.tile (b : Board) (s : Int × Int) : String :=
  b.letters.getD (s.2 * b.n + s.1).toNat ""

/-- `board[s] = L` — overwrite one tile. -/
def Board.setTile (b : Board) (s : Int × Int) (L : String) : Board :=
  ⟨b.n, b.letters.set (s.2 * b.n + s.1).toNat L⟩

/-- The recursive `continue_path(path, prefix)` inside `find_words`,
computed as the set of words found in its subtree.  The extra fuel argument
drives the recursion; `find_words` passes `b.squares.length + 1`, which the
no-revisit rule (`if s not in path`) makes sufficient. -/
def continuePath (b : Board) (words wordPres : Finset String) :
    Nat → List (Int × Int) → String → Finset String
  | 0, _, _ => ∅
  | fuel + 1, path, pre =>
    (if pre ∈ words then {pre} else ∅) ∪
    (if pre ∈ wordPres then
      ((neighbors (path.getLastD (0, 0)) b.n).filter fun t => decide (t ∉ path)).foldr
        (fun t acc => continuePath b words wordPres fuel (path ++ [t]) (pre ++ b.tile t) ∪ acc) ∅
    else ∅)

/-- `find_words(board, words, prefixes)`: start a path at every square. -/
def find_words (b : Board) (words wordPres : Finset String) : Finset String :=
  b.squares.foldr
    (fun s acc => continuePath b words wordPres (b.squares.length + 1) [s] (b.tile s) ∪ acc) ∅

/-- The payout list `[0, 0, 0, 1, 1, 2, 3, 5] + [11] * 99` (107 entries). -/
def scoresTable : List Nat := [0, 0, 0, 1, 1, 2, 3, 5] ++ List.replicate 99 11

/-- `total_score(found)` = `sum([scores[len(w)] for w in found & WORDS])`.
The global `WORDS` is passed explicitly.  Indexing `scores[len(w)]` raises
`IndexError` when `len(w) >= 107`; the embedding returns `none` exactly then. -/
def total_score (found WORDS : Finset String) : Option Nat :=
  if ∀ w ∈ found ∩ WORDS, w.length < scoresTable.length then
    some ((found ∩ WORDS).sum fun w => scoresTable.getD w.length 0)
  else none

/-- Python's `str.upper`, per character (A–Z input is unchanged). -/
def strUpper (s : String) : String := String.mk (s.data.map Char.toUpper)

/-- The dictionary build
`WORDS = {w for w in open(...).read().upper().split() if len(w) >= 3}`,
with the already-tokenized word list as input. -/
def buildWords (wordList : List String) : Finset String :=
  ((wordList.map strUpper).filter fun w => 3 ≤ w.length).toFinset

/-- `word_prefixes(words) = {word[:i] for word in words for i in range(1, len(word))}`. -/
def word_prefixes (words : Finset String) : Finset String :=
  words.biUnion fun w => ((List.range' 1 (w.length - 1)).map fun i => String.mk (w.data.take i)).toFinset

/-- The weighted letter pool
`LETTERS = 3 * 'AABCDEEEGHIILMNOOPRSTUY' + 'AADEFFIJKKLLNNQRSSTTUVVWWXZ'`. -/
def LETTERS : String :=
  "AABCDEEEGHIILMNOOPRSTUY" ++ "AABCDEEEGHIILMNOOPRSTUY" ++ "AABCDEEEGHIILMNOOPRSTUY" ++
    "AADEFFIJKKLLNNQRSSTTUVVWWXZ"

/-- `mutate_boggle(board)`: pick a square `s` (here: by choice index into
`board.squares`), remember its tile, overwrite it with a letter picked from
`LETTERS` (by choice index), and return the new board with `(s, old_letter)`. -/
def mutate_boggle (b : Board) (c : Nat × Nat) : Board × (Int × Int) × String :=
  let s := b.squares.getD c.1 (0, 0)
  let old := b.tile s
  (b.setTile s (String.singleton (LETTERS.data.getD c.2 'A')), s, old)

/-- One iteration of the `for _ in range(repeat)` loop in
`boggle_hill_climbing`: mutate, rescore the whole board, accept the mutation
and update the best score when `new_score >= best_score`, otherwise revert
the square.  `none` models `total_score` raising. -/
def hill_step (words wordPres : Finset String) (st : Board × Nat) (c : Nat × Nat) :
    Option (Board × Nat) :=
  let m := mutate_boggle st.1 c
  match total_score (find_words m.1 words wordPres) words with
  | none => none
  | some newScore =>
    if st.2 ≤ newScore then some (m.1, newScore) else some (m.1.setTile m.2.1 m.2.2, st.2)

/-- The optimizer loop over the list of per-iteration random choices. -/
def hill_loop (words wordPres : Finset String) :
    List (Nat × Nat) → Board → Nat → Option (Board × Nat)
  | [], b, best => some (b, best)
  | c :: cs, b, best =>
    match hill_step words wordPres (b, best) c with
    | none => none
    | some st => hill_loop words wordPres cs st.1 st.2

/-- `Board(board[s] for s in board.squares)` — the defensive copy taken at
the top of `boggle_hill_climbing` (note it re-runs `Board.__init__`, so a
bare `"Q"` tile becomes `"QU"` again). -/
def copyBoard (b : Board) : Board := Board.ofLetters (b.squares.map fun s => b.tile s)

/-- `boggle_hill_climbing(board, words, prefixes, repeat)`: copy the board,
compute the initial best score, then run the accept/revert loop once per
supplied random choice (`repeat` = `choices.length`). -/
def boggle_hill_climbing (b0 : Board) (words wordPres : Finset String)
    (choices : List (Nat × Nat)) : Option (Board × Nat) :=
  let b := copyBoard b0
  match total_score (find_words b words wordPres) words with
  | none => none
  | some best => hill_loop words wordPres choices b best

/-! ## Helper lemmas -/

theorem mem_foldr_union {α β : Type} [DecidableEq β] (f : α → Finset β) (l : List α) (x : β) :
    x ∈ l.foldr (fun a acc => f a ∪ acc) (∅ : Finset β) ↔ ∃ a ∈ l, x ∈ f a := by
  induction l with
  | nil => simp
  | cons a l ih => simp [List.foldr_cons, Finset.mem_union, ih]

theorem isqrt_spec (m : Nat) : isqrt m * isqrt m ≤ m ∧ m < (isqrt m + 1) * (isqrt m + 1) := by
  induction m with
  | zero => simp [isqrt]
  | succ k ih =>
    rw [isqrt]
    split
    · refine ⟨by omega, ?_⟩
      have := ih.2
      nlinarith
    · exact ⟨by omega, by omega⟩

theorem isqrt_eq_sqrt (m : Nat) : isqrt m = Nat.sqrt m := by
  have h := isqrt_spec m
  have h1 : isqrt m ≤ Nat.sqrt m := Nat.le_sqrt.2 h.1
  have h2 : Nat.sqrt m < isqrt m + 1 := Nat.sqrt_lt.2 h.2
  omega

theorem list_set_getD {α : Type} (l : List α) (i : Nat) (d : α) :
    l.set i (l.getD i d) = l := by
  induction l generalizing i with
  | nil => simp
  | cons a l ih =>
    cases i with
    | zero => simp
    | succ j =>
      have := ih j
      simp only [List.getD] at this ⊢
      simpa using this

/-- Concatenation of the tiles along a path (the `prefix` string the search
threads through `continue_path`). -/
def pathWord (b : Board) : List (Int × Int) → String
  | [] => ""
  | s :: rest => b.tile s ++ pathWord b rest

theorem pathWord_append (b : Board) (p : List (Int × Int)) (t : Int × Int) :
    pathWord b (p ++ [t]) = pathWord b p ++ b.tile t := by
  induction p with
  | nil => simp [pathWord, String.append_empty, String.empty_append]
  | cons s rest ih => simp [pathWord, ih, String.append_assoc]

/-- The adjacency notion of the specification: Chebyshev distance exactly 1,
the target in bounds, and the two squares distinct. -/
def chebAdjacent (n : Nat) (a b : Int × Int) : Prop :=
  max (b.1 - a.1).natAbs (b.2 - a.2).natAbs = 1 ∧
    0 ≤ b.1 ∧ b.1 < (n : Int) ∧ 0 ≤ b.2 ∧ b.2 < (n : Int) ∧ b ≠ a

theorem mem_squaresList (n : Nat) (t : Int × Int) :
    t ∈ squaresList n ↔ 0 ≤ t.1 ∧ t.1 < (n : Int) ∧ 0 ≤ t.2 ∧ t.2 < (n : Int) := by
  constructor
  · intro h
    unfold squaresList at h
    obtain ⟨y, hy, h⟩ := List.mem_flatMap.1 h
    obtain ⟨x, hx, rfl⟩ := List.mem_map.1 h
    rw [List.mem_range] at hx hy
    refine ⟨?_, ?_, ?_, ?_⟩ <;> dsimp only <;> omega
  · intro h
    obtain ⟨h1, h2, h3, h4⟩ := h
    unfold squaresList
    refine List.mem_flatMap.2 ⟨t.2.toNat, List.mem_range.2 (by omega), ?_⟩
    refine List.mem_map.2 ⟨t.1.toNat, List.mem_range.2 (by omega), ?_⟩
    rw [Prod.ext_iff]
    constructor <;> dsimp only <;> omega

theorem neighbors_chebAdjacent {s t : Int × Int} {n : Nat} (h : t ∈ neighbors s n) :
    chebAdjacent n s t := by
  simp only [neighbors, List.mem_map, List.mem_filter, decide_eq_true_eq] at h
  obtain ⟨d, ⟨hd, h1, h2, h3, h4, h5⟩, rfl⟩ := h
  simp only [deltas, List.mem_flatMap, List.mem_map] at hd
  obtain ⟨dx, hdx, dy, hdy, rfl⟩ := hd
  simp only [List.mem_cons, List.not_mem_nil, or_false] at hdx hdy
  dsimp only at h1 h2 h3 h4 h5 ⊢
  refine ⟨?_, h1, h2, h3, h4, ?_⟩
  · omega
  · simp only [ne_eq, Prod.ext_iff, not_and]
    intro hx
    omega

theorem neighbors_mem_squares {s t : Int × Int} {n : Nat} (h : t ∈ neighbors s n) :
    t ∈ squaresList n := by
  have := neighbors_chebAdjacent h
  exact (mem_squaresList n t).2 ⟨this.2.1, this.2.2.1, this.2.2.2.1, this.2.2.2.2.1⟩

/-! ## C1 — every found string is a dictionary word -/

theorem continuePath_sound (b : Board) (words wordPres : Finset String) :
    ∀ (fuel : Nat) (path : List (Int × Int)) (pre : String) (w : String),
      w ∈ continuePath b words wordPres fuel path pre → w ∈ words := by
  intro fuel
  induction fuel with
  | zero => intro path pre w h; simp [continuePath] at h
  | succ k ih =>
    intro path pre w h
    rw [continuePath] at h
    rcases Finset.mem_union.1 h with h1 | h2
    · split at h1
      · rw [Finset.mem_singleton] at h1
        subst h1; assumption
      · simp at h1
    · split at h2
      · rw [mem_foldr_union] at h2
        obtain ⟨t, _, hw⟩ := h2
        exact ih _ _ _ hw
      · simp at h2

/-- C1: every string returned by `find_words(G, D)` is a member of the
dictionary's word set; no non-dictionary string is ever returned. -/
theorem find_words_subset_words (b : Board) (words wordPres : Finset String) (w : String)
    (h : w ∈ find_words b words wordPres) : w ∈ words := by
  rw [find_words, mem_foldr_union] at h
  obtain ⟨s, _, hw⟩ := h
  exact continuePath_sound b words wordPres _ _ _ _ hw

theorem find_words_subset_words_witness :
    ("CAT" : String) ∈ ({"CAT"} : Finset String) :=
  find_words_subset_words (Board.ofLetters ["C", "A", "T", "S"]) {"CAT"}
    (word_prefixes {"CAT"}) "CAT" (by decide)

/-! ## C2 — every found word is spelled by a simple adjacent path -/

theorem continuePath_paths (b : Board) (words wordPres : Finset String) :
    ∀ (fuel : Nat) (path : List (Int × Int)) (pre : String),
      path ≠ [] → path.Nodup → List.Chain' (chebAdjacent b.n) path →
      (∀ s ∈ path, s ∈ b.squares) → pathWord b path = pre →
      ∀ w ∈ continuePath b words wordPres fuel path pre,
        ∃ p : List (Int × Int), p ≠ [] ∧ p.Nodup ∧ List.Chain' (chebAdjacent b.n) p ∧
          (∀ s ∈ p, s ∈ b.squares) ∧ pathWord b p = w := by
  intro fuel
  induction fuel with
  | zero => intro path pre _ _ _ _ _ w hw; simp [continuePath] at hw
  | succ k ih =>
    intro path pre hne hnd hch hsq hpw w hw
    rw [continuePath] at hw
    rcases Finset.mem_union.1 hw with h1 | h2
    · split at h1
      · rw [Finset.mem_singleton] at h1
        subst h1
        exact ⟨path, hne, hnd, hch, hsq, hpw⟩
      · simp at h1
    · split at h2
      · rw [mem_foldr_union] at h2
        obtain ⟨t, ht, hw2⟩ := h2
        rw [List.mem_filter] at ht
        obtain ⟨htn, htp⟩ := ht
        rw [decide_eq_true_eq] at htp
        have hlast : path.getLastD ((0 : Int), (0 : Int)) = path.getLast hne := by
          rw [List.getLastD_eq_getLast?, List.getLast?_eq_getLast path hne]
          rfl
        have hadj : chebAdjacent b.n (path.getLast hne) t := by
          rw [← hlast]; exact neighbors_chebAdjacent htn
        refine ih (path ++ [t]) (pre ++ b.tile t) (by simp) ?_ ?_ ?_ ?_ w hw2
        · rw [List.nodup_append]
          refine ⟨hnd, List.nodup_singleton t, ?_⟩
          intro a ha hat
          rw [List.mem_singleton] at hat
          subst hat
          exact htp ha
        · rw [List.chain'_append]
          refine ⟨hch, List.chain'_singleton t, ?_⟩
          intro x hx y hy
          rw [List.getLast?_eq_getLast path hne] at hx
          simp only [Option.mem_def, Option.some.injEq] at hx
          simp only [List.head?_cons, Option.mem_def, Option.some.injEq] at hy
          subst hx
          subst hy
          exact hadj
        · intro s hs
          rcases List.mem_append.1 hs with h | h
          · exact hsq s h
          · rw [List.mem_singleton] at h
            subst h
            exact neighbors_mem_squares (hlast ▸ htn)
        · rw [pathWord_append, hpw]
      · simp at h2

/-- C2: every word `w` returned by `find_words(G, D)` is witnessed by a path:
a nonempty sequence of grid coordinates with no coordinate repeated, whose
consecutive pairs are adjacent (Chebyshev distance 1, within bounds, not the
same cell), and whose concatenation of tiles equals `w`. -/
theorem find_words_has_path (b : Board) (words wordPres : Finset String) (w : String)
    (h : w ∈ find_words b words wordPres) :
    ∃ p : List (Int × Int), p ≠ [] ∧ p.Nodup ∧ List.Chain' (chebAdjacent b.n) p ∧
      (∀ s ∈ p, s ∈ b.squares) ∧ pathWord b p = w := by
  rw [find_words, mem_foldr_union] at h
  obtain ⟨s, hs, hw⟩ := h
  refine continuePath_paths b words wordPres _ [s] (b.tile s) (by simp)
    (List.nodup_singleton s) (List.chain'_singleton s) ?_ ?_ w hw
  · intro x hx
    rw [List.mem_singleton] at hx
    subst hx
    exact hs
  · simp [pathWord, String.append_empty]

theorem find_words_has_path_witness :
    ∃ p : List (Int × Int), p ≠ [] ∧ p.Nodup ∧
      List.Chain' (chebAdjacent (Board.ofLetters ["C", "A", "T", "S"]).n) p ∧
      (∀ s ∈ p, s ∈ (Board.ofLetters ["C", "A", "T", "S"]).squares) ∧
      pathWord (Board.ofLetters ["C", "A", "T", "S"]) p = "CAT" :=
  find_words_has_path (Board.ofLetters ["C", "A", "T", "S"]) {"CAT"} (word_prefixes {"CAT"})
    "CAT" (by decide)

/-! ## C3 / C10 — the payout table -/

/-- Modelled from the spec's words for the refinement comparison: the payout
function the claim describes — 0 for lengths 0–2, then 1, 1, 2, 3, 5 for
lengths 3–7, and 11 for *every* length ≥ 8. -/
def payoutSpec (L : Nat) : Nat :=
  if L ≤ 2 then 0
  else if L = 3 then 1
  else if L = 4 then 1
  else if L = 5 then 2
  else if L = 6 then 3
  else if L = 7 then 5
  else 11

/-- A 107-character string: the shortest length at which the payout list
indexing goes out of bounds. -/
def longWord : String := String.mk (List.replicate 107 'A')

theorem scoresTable_getD_eq_payoutSpec : ∀ L < 107, scoresTable.getD L 0 = payoutSpec L := by
  decide

/-- C3 as stated is false: with a common word of length 107, `total_score`
raises an index error (modelled as `none`) instead of returning the
claim's payout sum (which would pay 11 for the long word). -/
theorem total_score_payout_counterexample :
    total_score {longWord} {longWord} ≠
      some ((({longWord} : Finset String) ∩ {longWord}).sum fun w => payoutSpec w.length) := by
  decide

/-- C3 amended: `total_score(F, D)` equals the sum over `w ∈ F ∩ D.words` of
`payout(length w)` — with payout 11 only up to length 106 — provided every
common word has length at most 106; strings of `F` outside `D.words`
contribute nothing (the sum ranges over the intersection). -/
theorem total_score_eq_sum_payout (found WORDS : Finset String)
    (h : ∀ w ∈ found ∩ WORDS, w.length ≤ 106) :
    total_score found WORDS = some ((found ∩ WORDS).sum fun w => payoutSpec w.length) := by
  have hlen : scoresTable.length = 107 := by decide
  rw [total_score]
  split
  next hc =>
    congr 1
    refine Finset.sum_congr rfl fun w hw => ?_
    refine scoresTable_getD_eq_payoutSpec w.length ?_
    have := h w hw
    omega
  next hc =>
    exfalso
    apply hc
    intro w hw
    have := h w hw
    omega

theorem total_score_eq_sum_payout_witness :
    total_score {"CAT"} {"CAT"} =
      some ((({"CAT"} : Finset String) ∩ {"CAT"}).sum fun w => payoutSpec w.length) :=
  total_score_eq_sum_payout {"CAT"} {"CAT"} (by decide)

/-- C10: the payout list has exactly 107 entries (indices 0–106); the
scorer succeeds iff every common word has length at most 106; and on a
common 107-character string it fails with an index error (`none`) instead
of paying 11. -/
theorem scoresTable_bounds :
    scoresTable.length = 107 ∧
      (∀ found WORDS : Finset String,
        (total_score found WORDS).isSome = true ↔ ∀ w ∈ found ∩ WORDS, w.length ≤ 106) ∧
      longWord.length = 107 ∧ total_score {longWord} {longWord} = none := by
  have hlen : scoresTable.length = 107 := by decide
  refine ⟨hlen, ?_, by decide, by decide⟩
  intro found WORDS
  rw [total_score]
  split
  next hc =>
    simp only [Option.isSome_some, true_iff]
    intro w hw
    have := hc w hw
    omega
  next hc =>
    simp only [Option.isSome_none, Bool.false_eq_true, false_iff]
    intro hall
    apply hc
    intro w hw
    have := hall w hw
    omega

theorem scoresTable_bounds_witness : total_score {longWord} {longWord} = none :=
  scoresTable_bounds.2.2.2

/-! ## C6 / C9 — grid construction never fails; it truncates -/

theorem squaresList_length (n : Nat) : (squaresList n).length = n * n := by
  simp [squaresList, List.length_flatMap, Function.comp_def, List.map_const',
    List.sum_replicate, smul_eq_mul]

/-- C6 as stated is false: a count of 5 valid letters — neither zero nor a
perfect square — does not make construction fail; a full 2 × 2 grid of the
first four letters is produced. -/
theorem board_nonsquare_counterexample :
    (normalizeLetters ["A", "B", "C", "D", "E"]).length = 5 ∧
      Nat.sqrt 5 * Nat.sqrt 5 ≠ 5 ∧
      Board.ofLetters ["A", "B", "C", "D", "E"] = ⟨2, ["A", "B", "C", "D"]⟩ ∧
      (Board.ofLetters ["A", "B", "C", "D", "E"]).squares.length = 4 := by
  refine ⟨by decide, ?_, by decide, by decide⟩
  rw [← isqrt_eq_sqrt]
  decide

/-- C6 amended: grid construction never fails on the letter count.  When the
valid-letter count `M` is not a perfect square it still returns a grid — of
side `floor (sqrt M)` — silently discarding at least one letter. -/
theorem board_construction_total (input : List String)
    (h : Nat.sqrt (normalizeLetters input).length * Nat.sqrt (normalizeLetters input).length ≠
      (normalizeLetters input).length) :
    (Board.ofLetters input).n = Nat.sqrt (normalizeLetters input).length ∧
      (Board.ofLetters input).letters =
        (normalizeLetters input).take ((Board.ofLetters input).n * (Board.ofLetters input).n) ∧
      (Board.ofLetters input).letters.length < (normalizeLetters input).length := by
  have hs := isqrt_spec (normalizeLetters input).length
  rw [← isqrt_eq_sqrt] at h
  refine ⟨isqrt_eq_sqrt _, rfl, ?_⟩
  show ((normalizeLetters input).take _).length < _
  rw [List.length_take]
  have := min_le_right
    (isqrt (normalizeLetters input).length * isqrt (normalizeLetters input).length)
    (normalizeLetters input).length
  omega

theorem board_construction_total_witness :
    (Board.ofLetters ["A", "B", "C", "D", "E"]).letters.length <
      (normalizeLetters ["A", "B", "C", "D", "E"]).length :=
  (board_construction_total ["A", "B", "C", "D", "E"]
    (by rw [← isqrt_eq_sqrt]; decide)).2.2

/-- C9: grid construction raises no error for any input: with `M` the count
of valid letters after filtering and QU-substitution and `n = floor (sqrt M)`,
it returns an `n` × `n` grid (exactly `n * n` squares and `n * n` tiles)
whose tiles are the first `n * n` valid letters in input order, discarding
the remaining `M - n * n`; for `M = 0` the grid has no cells. -/
theorem board_ofLetters_spec (input : List String) :
    (Board.ofLetters input).n = Nat.sqrt (normalizeLetters input).length ∧
      (Board.ofLetters input).letters =
        (normalizeLetters input).take
          (Nat.sqrt (normalizeLetters input).length * Nat.sqrt (normalizeLetters input).length) ∧
      (Board.ofLetters input).letters.length =
        Nat.sqrt (normalizeLetters input).length * Nat.sqrt (normalizeLetters input).length ∧
      (Board.ofLetters input).squares.length =
        Nat.sqrt (normalizeLetters input).length * Nat.sqrt (normalizeLetters input).length ∧
      ((normalizeLetters input).length = 0 →
        (Board.ofLetters input).squares = [] ∧ (Board.ofLetters input).letters = []) := by
  have hs := isqrt_spec (normalizeLetters input).length
  have he := isqrt_eq_sqrt (normalizeLetters input).length
  refine ⟨by rw [← he]; rfl, by rw [← he]; rfl, ?_, ?_, ?_⟩
  · show ((normalizeLetters input).take _).length = _
    rw [List.length_take, ← he]
    omega
  · show (squaresList (isqrt (normalizeLetters input).length)).length = _
    rw [squaresList_length, ← he]
  · intro h0
    have hn : isqrt (normalizeLetters input).length = 0 := by
      rw [h0]
      rfl
    constructor
    · show squaresList (isqrt (normalizeLetters input).length) = []
      rw [hn]
      rfl
    · show (normalizeLetters input).take _ = []
      rw [hn]
      rfl

theorem board_ofLetters_spec_witness :
    (Board.ofLetters ["A", "B", "C", "D", "E"]).squares.length =
      Nat.sqrt (normalizeLetters ["A", "B", "C", "D", "E"]).length *
        Nat.sqrt (normalizeLetters ["A", "B", "C", "D", "E"]).length :=
  (board_ofLetters_spec ["A", "B", "C", "D", "E"]).2.2.2.1

/-! ## C8 — dictionary construction on an empty word list -/

/-- C8 as stated is false: building the index from an empty word list does
not fail — it returns an empty index (no words, no leading substrings). -/
theorem buildWords_empty_counterexample :
    buildWords [] = (∅ : Finset String) ∧ word_prefixes (buildWords []) = ∅ := by
  decide

/-- C8 amended: dictionary construction never fails; a word list with no
qualifying entries (length ≥ 3 after uppercasing) yields the empty index,
on which any search trivially returns nothing. -/
theorem buildWords_no_qualifying (wordList : List String)
    (h : ∀ w ∈ wordList, (strUpper w).length < 3) :
    buildWords wordList = ∅ ∧ word_prefixes (buildWords wordList) = ∅ := by
  have hb : buildWords wordList = ∅ := by
    rw [buildWords, List.toFinset_eq_empty_iff, List.filter_eq_nil_iff]
    intro a ha
    obtain ⟨w, hw, rfl⟩ := List.mem_map.1 ha
    have := h w hw
    simp only [decide_eq_true_eq]
    omega
  refine ⟨hb, ?_⟩
  rw [word_prefixes, hb, Finset.biUnion_empty]

theorem buildWords_no_qualifying_witness :
    buildWords ["go", "a"] = ∅ ∧ word_prefixes (buildWords ["go", "a"]) = ∅ :=
  buildWords_no_qualifying ["go", "a"] (by decide)

/-! ## C7 — the tile invariant -/

/-- The tile well-formedness invariant of the specification: a single
character in A–Z, or exactly the two-character tile "QU". -/
def validTile (t : String) : Prop :=
  (t.length = 1 ∧ ∀ c ∈ t.data, 'A' ≤ c ∧ c ≤ 'Z') ∨ t = "QU"

instance validTile.decidable (t : String) : Decidable (validTile t) :=
  decidable_of_iff ((t.length = 1 ∧ ∀ c ∈ t.data, 'A' ≤ c ∧ c ≤ 'Z') ∨ t = "QU") Iff.rfl

theorem lexLe_single_iff (a b : Char) : lexLe [a] [b] = true ↔ a ≤ b := by
  simp only [lexLe]
  split
  next h => simp [le_of_lt h]
  next h =>
    split
    next h2 => simp [h2, not_le.2 h2]
    next h2 => simp [lexLe, le_of_not_lt h2]

theorem ofLetters_validTile (input : List String) (h : ∀ L ∈ input, L.length = 1) :
    ∀ t ∈ (Board.ofLetters input).letters, validTile t := by
  intro t ht
  have ht' : t ∈ normalizeLetters input := List.mem_of_mem_take ht
  rw [normalizeLetters] at ht'
  obtain ⟨L, hL, rfl⟩ := List.mem_map.1 ht'
  rw [List.mem_filter] at hL
  obtain ⟨hLin, hLcond⟩ := hL
  rw [Bool.and_eq_true] at hLcond
  obtain ⟨h1, h2⟩ := hLcond
  by_cases hq : L = "Q"
  · rw [if_pos hq]
    right
    rfl
  · rw [if_neg hq]
    left
    have hlen := h L hLin
    have hdlen : L.data.length = 1 := hlen
    obtain ⟨c, hc⟩ := List.length_eq_one.1 hdlen
    refine ⟨hlen, ?_⟩
    intro d hd
    rw [hc] at hd
    rw [List.mem_singleton] at hd
    subst hd
    have h1' : lexLe ['A'] [d] = true := by
      rw [pyLE, hc] at h1
      exact h1
    have h2' : lexLe [d] ['Z'] = true := by
      rw [pyLE, hc] at h2
      exact h2
    exact ⟨(lexLe_single_iff 'A' d).1 h1', (lexLe_single_iff d 'Z').1 h2'⟩

theorem LETTERS_getD_range (i : Nat) :
    'A' ≤ LETTERS.data.getD i 'A' ∧ LETTERS.data.getD i 'A' ≤ 'Z' := by
  have hall : ∀ ch ∈ LETTERS.data, 'A' ≤ ch ∧ ch ≤ 'Z' := by decide
  by_cases hi : i < LETTERS.data.length
  · rw [List.getD_eq_getElem _ _ hi]
    exact hall _ (List.getElem_mem hi)
  · rw [List.getD_eq_default _ _ (by omega)]
    exact ⟨le_refl _, by decide⟩

theorem mutate_validTile (b : Board) (c : Nat × Nat) (h : ∀ t ∈ b.letters, validTile t) :
    ∀ t ∈ ((mutate_boggle b c).1).letters, validTile t := by
  intro t ht
  simp only [mutate_boggle, Board.setTile] at ht
  rcases List.mem_or_eq_of_mem_set ht with h1 | rfl
  · exact h t h1
  · left
    refine ⟨rfl, ?_⟩
    intro d hd
    have hds : d = LETTERS.data.getD c.2 'A' := by
      simpa [String.singleton] using hd
    subst hds
    exact LETTERS_getD_range c.2

/-- C7: every tile is a single character in A–Z or exactly "QU", and the
invariant is preserved by every tile-writing operation: construction from
single-character input letters establishes it ("Q" is normalized to "QU",
so no bare "Q" tile ever leaves construction), and the optimizer's mutation
step — which writes a letter drawn from the `LETTERS` pool — preserves it. -/
theorem tile_invariant :
    (∀ input : List String, (∀ L ∈ input, L.length = 1) →
        ∀ t ∈ (Board.ofLetters input).letters, validTile t) ∧
      (∀ (b : Board) (c : Nat × Nat), (∀ t ∈ b.letters, validTile t) →
        ∀ t ∈ ((mutate_boggle b c).1).letters, validTile t) ∧
      (∀ input : List String, ("Q" : String) ∉ (Board.ofLetters input).letters) := by
  refine ⟨ofLetters_validTile, mutate_validTile, ?_⟩
  intro input hq
  have hq' : ("Q" : String) ∈ normalizeLetters input := List.mem_of_mem_take hq
  rw [normalizeLetters] at hq'
  obtain ⟨L, _, heq⟩ := List.mem_map.1 hq'
  by_cases hL : L = "Q"
  · rw [if_pos hL] at heq
    exact absurd heq (by decide)
  · rw [if_neg hL] at heq
    exact hL heq

theorem tile_invariant_witness :
    validTile "QU" ∧ validTile "Q" ∧ ("Q" : String) ∉ (Board.ofLetters ["Q"]).letters :=
  ⟨tile_invariant.1 ["Q", "A", "T", "S"] (by decide) "QU" (by decide),
    tile_invariant.2.1 (Board.ofLetters ["A", "A", "T", "S"]) (0, 83) (by decide) "Q" (by decide),
    tile_invariant.2.2 ["Q"]⟩

/-! ## C5 — accept on ties, revert otherwise -/

theorem mutate_revert (b : Board) (c : Nat × Nat) :
    ((mutate_boggle b c).1).setTile (mutate_boggle b c).2.1 (mutate_boggle b c).2.2 = b := by
  obtain ⟨n, letters⟩ := b
  simp only [mutate_boggle, Board.setTile, Board.tile]
  congr 1
  rw [List.set_set]
  exact list_set_getD _ _ _

/-- C5: in each optimizer iteration, with `newScore` the fresh whole-board
`find_words` + `total_score` rescoring of the mutated board, the mutation is
kept and the best score becomes `newScore` exactly when
`newScore ≥ bestScore` (ties accepted); otherwise the mutated square is
written back to its previous tile, restoring exactly the pre-mutation board
and keeping the old best score. -/
theorem hill_step_accept_or_revert (words wordPres : Finset String) (b : Board) (best : Nat)
    (c : Nat × Nat) (newScore : Nat)
    (h : total_score (find_words (mutate_boggle b c).1 words wordPres) words = some newScore) :
    (best ≤ newScore →
      hill_step words wordPres (b, best) c = some ((mutate_boggle b c).1, newScore)) ∧
      (newScore < best → hill_step words wordPres (b, best) c = some (b, best)) := by
  constructor
  · intro hge
    simp only [hill_step]
    rw [h]
    dsimp only
    rw [if_pos hge]
  · intro hlt
    simp only [hill_step]
    rw [h]
    dsimp only
    rw [if_neg (not_le.2 hlt)]
    rw [mutate_revert]

theorem hill_step_accept_or_revert_witness :
    hill_step {"QAT"} (word_prefixes {"QAT"}) (Board.ofLetters ["A", "A", "T", "S"], 0) (0, 83) =
      some ((mutate_boggle (Board.ofLetters ["A", "A", "T", "S"]) (0, 83)).1, 1) :=
  (hill_step_accept_or_revert {"QAT"} (word_prefixes {"QAT"})
    (Board.ofLetters ["A", "A", "T", "S"]) 0 (0, 83) 1 (by decide)).1 (by decide)

/-! ## C4 — optimizer monotonicity -/

theorem hill_step_mono (words wordPres : Finset String) (b : Board) (best : Nat) (c : Nat × Nat)
    (b2 : Board) (best2 : Nat)
    (hb : total_score (find_words b words wordPres) words = some best)
    (h : hill_step words wordPres (b, best) c = some (b2, best2)) :
    total_score (find_words b2 words wordPres) words = some best2 ∧ best ≤ best2 := by
  simp only [hill_step] at h
  cases hts : total_score (find_words (mutate_boggle b c).1 words wordPres) words with
  | none =>
    rw [hts] at h
    cases h
  | some newScore =>
    rw [hts] at h
    dsimp only at h
    split at h
    next hif =>
      simp only [Option.some.injEq, Prod.mk.injEq] at h
      obtain ⟨h1, h2⟩ := h
      subst h1
      subst h2
      exact ⟨hts, hif⟩
    next hif =>
      rw [mutate_revert] at h
      simp only [Option.some.injEq, Prod.mk.injEq] at h
      obtain ⟨h1, h2⟩ := h
      subst h1
      subst h2
      exact ⟨hb, le_refl best⟩

theorem hill_loop_mono (words wordPres : Finset String) :
    ∀ (choices : List (Nat × Nat)) (b : Board) (best : Nat) (b2 : Board) (best2 : Nat),
      total_score (find_words b words wordPres) words = some best →
      hill_loop words wordPres choices b best = some (b2, best2) →
      total_score (find_words b2 words wordPres) words = some best2 ∧ best ≤ best2 := by
  intro choices
  induction choices with
  | nil =>
    intro b best b2 best2 hb h
    rw [hill_loop] at h
    simp only [Option.some.injEq, Prod.mk.injEq] at h
    obtain ⟨h1, h2⟩ := h
    subst h1
    subst h2
    exact ⟨hb, le_refl best⟩
  | cons c cs ih =>
    intro b best b2 best2 hb h
    rw [hill_loop] at h
    cases hstep : hill_step words wordPres (b, best) c with
    | none =>
      rw [hstep] at h
      cases h
    | some st =>
      rw [hstep] at h
      obtain ⟨bm, bestm⟩ := st
      dsimp only at h
      obtain ⟨hts', hle⟩ := hill_step_mono words wordPres b best c bm bestm hb hstep
      obtain ⟨hfin, hle2⟩ := ih bm bestm b2 best2 hts' h
      exact ⟨hfin, le_trans hle hle2⟩

set_option maxHeartbeats 1000000 in
/-- C4 amended: for every grid, dictionary, iteration count and sequence of
random choices, whenever the optimizer completes it returns a grid scoring
at least as much as its own starting point — the reconstructed *copy* of the
input grid.  (Relative to the input grid itself the claim fails: the copy
re-runs construction, which rewrites a bare "Q" tile — writable by the
mutation step — into "QU" and can lose words; see the counterexample.) -/
theorem boggle_hill_climbing_mono (b0 : Board) (words wordPres : Finset String)
    (choices : List (Nat × Nat)) (b1 : Board) (best1 : Nat)
    (h : boggle_hill_climbing b0 words wordPres choices = some (b1, best1)) :
    ∃ s0 : Nat,
      total_score (find_words (copyBoard b0) words wordPres) words = some s0 ∧
        total_score (find_words b1 words wordPres) words = some best1 ∧ s0 ≤ best1 := by
  simp only [boggle_hill_climbing] at h
  cases hts : total_score (find_words (copyBoard b0) words wordPres) words with
  | none =>
    rw [hts] at h
    cases h
  | some s0 =>
    rw [hts] at h
    dsimp only at h
    obtain ⟨hfin, hle⟩ := hill_loop_mono words wordPres choices (copyBoard b0) s0 b1 best1 hts h
    exact ⟨s0, rfl, hfin, hle⟩

set_option maxHeartbeats 2000000 in
theorem boggle_hill_climbing_mono_witness :
    ∃ s0 : Nat,
      total_score (find_words (copyBoard (Board.ofLetters ["A", "A", "T", "S"])) {"QAT"}
          (word_prefixes {"QAT"})) {"QAT"} = some s0 ∧
        total_score (find_words (⟨2, ["Q", "A", "T", "S"]⟩ : Board) {"QAT"}
          (word_prefixes {"QAT"})) {"QAT"} = some 1 ∧ s0 ≤ 1 :=
  boggle_hill_climbing_mono (Board.ofLetters ["A", "A", "T", "S"]) {"QAT"}
    (word_prefixes {"QAT"}) [(0, 83)] ⟨2, ["Q", "A", "T", "S"]⟩ 1 (by decide)

set_option maxHeartbeats 2000000 in
/-- C4 as stated is false.  Starting from the constructed board `A A / T S`
with dictionary {"QAT"}, one optimizer iteration (choice: square 0, pool
letter 83 = 'Q') is accepted and yields the board `Q A / T S` with score 1 —
so that board is reachable as an optimizer output.  Running the optimizer on
it with zero iterations returns its reconstructed copy `QU A / T S`, which
scores 0 < 1: the optimizer returned a grid scoring below its input. -/
theorem boggle_hill_climbing_not_mono :
    boggle_hill_climbing (Board.ofLetters ["A", "A", "T", "S"]) {"QAT"}
        (word_prefixes {"QAT"}) [(0, 83)] = some (⟨2, ["Q", "A", "T", "S"]⟩, 1) ∧
      total_score (find_words (⟨2, ["Q", "A", "T", "S"]⟩ : Board) {"QAT"}
        (word_prefixes {"QAT"})) {"QAT"} = some 1 ∧
      boggle_hill_climbing (⟨2, ["Q", "A", "T", "S"]⟩ : Board) {"QAT"}
        (word_prefixes {"QAT"}) [] = some (⟨2, ["QU", "A", "T", "S"]⟩, 0) ∧
      total_score (find_words (⟨2, ["QU", "A", "T", "S"]⟩ : Board) {"QAT"}
        (word_prefixes {"QAT"})) {"QAT"} = some 0 := by
  refine ⟨by decide, by decide, by decide, by decide⟩

example : Board.ofLetters ["C", "A", "T", "S"] = ⟨2, ["C", "A", "T", "S"]⟩ := by decide
example : Board.ofLetters ["A", "B", "C", "D", "E"] = ⟨2, ["A", "B", "C", "D"]⟩ := by decide
example : Board.ofLetters ["Q", "A", "T", "S"] = ⟨2, ["QU", "A", "T", "S"]⟩ := by decide
example : word_prefixes {"QAT"} = {"Q", "QA"} := by decide
example : LETTERS.data.getD 83 'A' = 'Q' := by decide
example :
    find_words (Board.ofLetters ["C", "A", "T", "S"]) {"CAT"} (word_prefixes {"CAT"}) =
      {"CAT"} := by decide
example :
    total_score {"CAT"} {"CAT"} = some 1 := by decide
